import Mathlib

/-!
Verification of the RTMS financial-consultation assistant (src/index.js):
a shallow embedding of its session-record merge logic, audio rebuffer,
speaker attribution, conversation-history pruning and transcript handler,
with proofs of the specified properties.
-/

namespace RTMSAssist

/-! ## JavaScript-style primitives

`jsTrim` models `String.prototype.trim` (strip leading/trailing whitespace);
association lists model JS objects / `Map`s: `setA` updates an existing key
in place or appends a new one (JS insertion-order semantics), `updA` mutates
the value of an existing key, `lookupA` reads. -/

def jsTrim (s : String) : String :=
  ⟨((s.data.dropWhile Char.isWhitespace).reverse.dropWhile Char.isWhitespace).reverse⟩

def lookupA {α β : Type} [DecidableEq α] : List (α × β) → α → Option β
  | [], _ => none
  | (k, v) :: rest, key => if k = key then some v else lookupA rest key

def setA {α β : Type} [DecidableEq α] : List (α × β) → α → β → List (α × β)
  | [], key, v => [(key, v)]
  | (k, w) :: rest, key, v =>
      if k = key then (key, v) :: rest else (k, w) :: setA rest key v

def updA {α β : Type} [DecidableEq α] : List (α × β) → α → (β → β) → List (α × β)
  | [], _, _ => []
  | (k, w) :: rest, key, f =>
      if k = key then (k, f w) :: rest else (k, w) :: updA rest key f

def hasA {α β : Type} [DecidableEq α] (l : List (α × β)) (key : α) : Bool :=
  (lookupA l key).isSome

theorem lookupA_setA_self {α β : Type} [DecidableEq α] (l : List (α × β)) (k : α) (v : β) :
    lookupA (setA l k v) k = some v := by
  induction l with
  | nil => simp [setA, lookupA]
  | cons hd tl ih =>
      obtain ⟨k', v'⟩ := hd
      by_cases h : k' = k <;> simp [setA, lookupA, h, ih]

theorem lookupA_setA_ne {α β : Type} [DecidableEq α] (l : List (α × β)) (k x : α) (v : β)
    (h : k ≠ x) : lookupA (setA l k v) x = lookupA l x := by
  induction l with
  | nil => simp [setA, lookupA, h]
  | cons hd tl ih =>
      obtain ⟨k', v'⟩ := hd
      by_cases h' : k' = k
      · subst h'; simp [setA, lookupA, h]
      · simp [setA, lookupA, h', ih]

theorem lookupA_updA_ne {α β : Type} [DecidableEq α] (l : List (α × β)) (k x : α)
    (f : β → β) (h : k ≠ x) : lookupA (updA l k f) x = lookupA l x := by
  induction l with
  | nil => simp [updA, lookupA]
  | cons hd tl ih =>
      obtain ⟨k', v'⟩ := hd
      by_cases h' : k' = k
      · subst h'; simp [updA, lookupA, h, ih]
      · simp [updA, lookupA, h', ih]

theorem keys_setA_of_has {α β : Type} [DecidableEq α] (l : List (α × β)) (k : α) (v : β)
    (h : hasA l k = true) : (setA l k v).map Prod.fst = l.map Prod.fst := by
  induction l with
  | nil => simp [hasA, lookupA] at h
  | cons hd tl ih =>
      obtain ⟨k', v'⟩ := hd
      by_cases h' : k' = k
      · subst h'; simp [setA]
      · simp [hasA, lookupA, h'] at h
        simp [setA, h', ih h]

theorem keys_updA {α β : Type} [DecidableEq α] (l : List (α × β)) (k : α) (f : β → β) :
    (updA l k f).map Prod.fst = l.map Prod.fst := by
  induction l with
  | nil => simp [updA]
  | cons hd tl ih =>
      obtain ⟨k', v'⟩ := hd
      by_cases h' : k' = k <;> simp [updA, h', ih]

theorem hasA_iff_mem_keys {α β : Type} [DecidableEq α] (l : List (α × β)) (k : α) :
    hasA l k = true ↔ k ∈ l.map Prod.fst := by
  induction l with
  | nil => simp [hasA, lookupA]
  | cons hd tl ih =>
      obtain ⟨k', v'⟩ := hd
      by_cases h' : k' = k
      · subst h'; simp [hasA, lookupA]
      · simp [hasA, lookupA, h', Ne.symm h', ← ih]

theorem hasA_setA {α β : Type} [DecidableEq α] (l : List (α × β)) (k x : α) (v : β) :
    hasA (setA l k v) x = (decide (x = k) || hasA l x) := by
  induction l with
  | nil =>
      by_cases h : x = k
      · subst h; simp [setA, hasA, lookupA]
      · simp [setA, hasA, lookupA, h, Ne.symm h]
  | cons hd tl ih =>
      obtain ⟨k', v'⟩ := hd
      by_cases h' : k' = k
      · subst h'
        by_cases h : k' = x
        · subst h; simp [setA, hasA, lookupA]
        · simp [setA, hasA, lookupA, h, Ne.symm h]
      · by_cases h : k' = x
        · subst h; simp [setA, h', hasA, lookupA, Ne.symm h']
        · simp only [setA, h', if_false, hasA, lookupA, if_neg h]
          simpa [hasA] using ih

/-! ## Session record data model (src/index.js lines 66-98)

`financialData` holds the cumulative session record.  The `faint` member is a
JS object initially carrying the five FAINT slots, each set to the sentinel
`"Not identified"`; it is modelled as an association list (`Obj`) because the
JS code can in principle write arbitrary keys into it. -/

abbrev Obj := List (String × String)

def sentinel : String := "Not identified"

def initialFaint : Obj :=
  [("funds", sentinel), ("authority", sentinel), ("interest", sentinel),
   ("need", sentinel), ("timing", sentinel)]

def faintKeys : List String := ["funds", "authority", "interest", "need", "timing"]

structure Concern where
  concern : String
  addressing_strategy : String
deriving DecidableEq, Repr

structure StrategicQuestion where
  question : String
  purpose : String
deriving DecidableEq, Repr

structure FinancialData where
  summary : List String
  faint : Obj
  clientInfo : List String
  advisorReminders : List String
  concerns : List Concern
  strategicQuestions : List StrategicQuestion
deriving DecidableEq, Repr

def initialFinancialData : FinancialData :=
  { summary := []
    faint := initialFaint
    clientInfo := []
    advisorReminders := []
    concerns := []
    strategicQuestions := [] }

/-! ## Tool execution (src/index.js `executeToolAndGetResult`, lines 1972-2034)

Each tool call carries the Claude-supplied `id` and its typed input.  The
`update_faint` case iterates over the input object's keys and overwrites a
field only when the supplied value is truthy, non-blank after trimming, and
not the sentinel (lines 1983-1988). -/

structure ToolResult where
  tool_use_id : String
  content : String
deriving DecidableEq, Repr

inductive ToolUseReq
  | update_summary (id : String) (new_point : String)
  | update_faint (id : String) (input : Obj)
  | update_client_info (id : String) (new_info : String)
  | update_advisor_reminders (id : String) (new_reminder : String)
  | update_concerns (id : String) (new_concern : Concern)
  | update_strategic_questions (id : String) (new_question : StrategicQuestion)
  | other (id : String) (name : String)
deriving DecidableEq, Repr

def faintValueAccepted (v : String) : Bool :=
  v != "" && jsTrim v != "" && v != sentinel

def updateFaint (faint : Obj) (input : Obj) : Obj :=
  input.foldl
    (fun acc kv => if faintValueAccepted kv.2 then setA acc kv.1 kv.2 else acc)
    faint

def executeToolAndGetResult (fd : FinancialData) (t : ToolUseReq) :
    FinancialData × ToolResult :=
  match t with
  | .update_summary id p =>
      ({ fd with summary := fd.summary ++ [p] }, ⟨id, "Added"⟩)
  | .update_faint id input =>
      ({ fd with faint := updateFaint fd.faint input }, ⟨id, "Updated"⟩)
  | .update_client_info id info =>
      ({ fd with clientInfo := fd.clientInfo ++ [info] }, ⟨id, "Added"⟩)
  | .update_advisor_reminders id r =>
      ({ fd with advisorReminders := fd.advisorReminders ++ [r] }, ⟨id, "Added"⟩)
  | .update_concerns id c =>
      ({ fd with concerns := fd.concerns ++ [c] }, ⟨id, "Added"⟩)
  | .update_strategic_questions id q =>
      ({ fd with strategicQuestions := fd.strategicQuestions ++ [q] }, ⟨id, "Added"⟩)
  | .other id _ => (fd, ⟨id, "Done"⟩)

def applyToolCalls (fd : FinancialData) (ts : List ToolUseReq) : FinancialData :=
  ts.foldl (fun acc t => (executeToolAndGetResult acc t).1) fd

def inputKeysWithinFaint : ToolUseReq → Bool
  | .update_faint _ input => input.all (fun kv => faintKeys.contains kv.1)
  | _ => true

/-! ## Merge-policy lemmas -/

theorem updateFaint_cons (faint : Obj) (k v : String) (rest : Obj) :
    updateFaint faint ((k, v) :: rest) =
      updateFaint (if faintValueAccepted v then setA faint k v else faint) rest := rfl

theorem updateFaint_lookup_not_mem (input : Obj) (faint : Obj) (f : String)
    (h : f ∉ input.map Prod.fst) :
    lookupA (updateFaint faint input) f = lookupA faint f := by
  induction input generalizing faint with
  | nil => rfl
  | cons kv rest ih =>
      obtain ⟨k, v⟩ := kv
      simp only [List.map_cons, List.mem_cons, not_or] at h
      rw [updateFaint_cons]
      rw [ih _ h.2]
      by_cases hacc : faintValueAccepted v
      · simp only [hacc, if_true]
        exact lookupA_setA_ne _ _ _ _ (fun he => h.1 he.symm)
      · simp [hacc]

theorem hasA_updateFaint_mono (input : Obj) (faint : Obj) (k : String)
    (h : hasA faint k = true) : hasA (updateFaint faint input) k = true := by
  induction input generalizing faint with
  | nil => exact h
  | cons kv rest ih =>
      obtain ⟨k', v⟩ := kv
      rw [updateFaint_cons]
      by_cases hacc : faintValueAccepted v
      · simp only [hacc, if_true]
        exact ih _ (by rw [hasA_setA]; simp [h])
      · simp only [hacc, if_false]
        exact ih _ h

theorem keys_updateFaint_of_within (input : Obj) (faint : Obj)
    (hin : ∀ kv ∈ input, kv.1 ∈ faintKeys)
    (hk : faint.map Prod.fst = faintKeys) :
    (updateFaint faint input).map Prod.fst = faintKeys := by
  induction input generalizing faint with
  | nil => exact hk
  | cons kv rest ih =>
      obtain ⟨k, v⟩ := kv
      rw [updateFaint_cons]
      by_cases hacc : faintValueAccepted v
      · simp only [hacc, if_true]
        refine ih _ (fun kv h => hin kv (List.mem_cons_of_mem _ h)) ?_
        rw [keys_setA_of_has _ _ _ ?_, hk]
        rw [hasA_iff_mem_keys, hk]
        exact hin (k, v) (List.mem_cons_self _ _)
      · simp only [hacc, if_false]
        exact ih _ (fun kv h => hin kv (List.mem_cons_of_mem _ h)) hk

/-- C1: non-destructive qualification merge.  For every current `faint` record
and every `update_faint` input (a JS object, so its keys are distinct), the
value of a field after the merge is: the supplied value when the input carries
a non-empty, non-blank, non-sentinel value for that field, and the previous
value in every other case (field omitted, empty/whitespace value, or the
sentinel "Not identified"). -/
theorem faint_merge_nondestructive (faint input : Obj) (f : String)
    (hnd : (input.map Prod.fst).Nodup) :
    lookupA (updateFaint faint input) f =
      match lookupA input f with
      | some v => if faintValueAccepted v then some v else lookupA faint f
      | none => lookupA faint f := by
  induction input generalizing faint with
  | nil => rfl
  | cons kv rest ih =>
      obtain ⟨k, v⟩ := kv
      simp only [List.map_cons, List.nodup_cons] at hnd
      rw [updateFaint_cons]
      by_cases hkf : k = f
      · subst hkf
        rw [updateFaint_lookup_not_mem _ _ _ hnd.1]
        by_cases hacc : faintValueAccepted v
        · simp [hacc, lookupA, lookupA_setA_self]
        · simp [hacc, lookupA]
      · have hrw : lookupA (if faintValueAccepted v then setA faint k v else faint) f
            = lookupA faint f := by
          by_cases hacc : faintValueAccepted v
          · simp only [hacc, if_true]
            exact lookupA_setA_ne _ _ _ _ hkf
          · simp [hacc]
        rw [ih _ hnd.2]
        simp only [lookupA, if_neg hkf]
        cases hlk : lookupA rest f with
        | none => simp [hrw]
        | some v' =>
            by_cases hacc' : faintValueAccepted v' <;> simp [hacc', hrw]

/-- Witness for C1 at a concrete input: after an update that supplies a real
value for `funds`, a whitespace value for `timing` and the sentinel for
`need`, the `funds` field holds the new value while `timing`, `need` and the
omitted `authority` keep their previous values. -/
theorem faint_merge_nondestructive_witness :
    lookupA (updateFaint initialFaint
        [("funds", "has $2M in savings"), ("timing", "  "), ("need", "Not identified")])
        "funds" = some "has $2M in savings" ∧
    lookupA (updateFaint initialFaint
        [("funds", "has $2M in savings"), ("timing", "  "), ("need", "Not identified")])
        "timing" = lookupA initialFaint "timing" ∧
    lookupA (updateFaint initialFaint
        [("funds", "has $2M in savings"), ("timing", "  "), ("need", "Not identified")])
        "need" = lookupA initialFaint "need" ∧
    lookupA (updateFaint initialFaint
        [("funds", "has $2M in savings"), ("timing", "  "), ("need", "Not identified")])
        "authority" = lookupA initialFaint "authority" := by
  refine ⟨?_, ?_, ?_, ?_⟩ <;>
    exact (faint_merge_nondestructive initialFaint
      [("funds", "has $2M in savings"), ("timing", "  "), ("need", "Not identified")]
      _ (by decide)).trans (by decide)

/-- C2: append-only lists never shrink.  Every tool call leaves the five list
members of the session record with non-decreasing length, and each of the five
append tools appends exactly one element to its own list, leaving the existing
elements (and every other list) unchanged. -/
theorem append_only_lists_never_shrink (fd : FinancialData) (t : ToolUseReq) :
    (fd.summary.length ≤ (executeToolAndGetResult fd t).1.summary.length ∧
     fd.clientInfo.length ≤ (executeToolAndGetResult fd t).1.clientInfo.length ∧
     fd.advisorReminders.length ≤ (executeToolAndGetResult fd t).1.advisorReminders.length ∧
     fd.concerns.length ≤ (executeToolAndGetResult fd t).1.concerns.length ∧
     fd.strategicQuestions.length ≤ (executeToolAndGetResult fd t).1.strategicQuestions.length) ∧
    ((executeToolAndGetResult fd t).1.summary =
      match t with
      | .update_summary _ p => fd.summary ++ [p]
      | _ => fd.summary) ∧
    ((executeToolAndGetResult fd t).1.clientInfo =
      match t with
      | .update_client_info _ i => fd.clientInfo ++ [i]
      | _ => fd.clientInfo) ∧
    ((executeToolAndGetResult fd t).1.advisorReminders =
      match t with
      | .update_advisor_reminders _ r => fd.advisorReminders ++ [r]
      | _ => fd.advisorReminders) ∧
    ((executeToolAndGetResult fd t).1.concerns =
      match t with
      | .update_concerns _ c => fd.concerns ++ [c]
      | _ => fd.concerns) ∧
    ((executeToolAndGetResult fd t).1.strategicQuestions =
      match t with
      | .update_strategic_questions _ q => fd.strategicQuestions ++ [q]
      | _ => fd.strategicQuestions) := by
  cases t <;> simp [executeToolAndGetResult]

/-- C9 counterexample: the qualification record's key set is not invariant.
From the initial record, a single reachable `update_faint` tool call whose
input carries the key `"budget"` (the code iterates `Object.keys` of the raw
input without validating them) leaves the record with a key outside the five
FAINT slots. -/
theorem faint_keys_counterexample :
    ((executeToolAndGetResult initialFinancialData
        (.update_faint "toolu_01" [("budget", "high")])).1.faint).map Prod.fst
      ≠ faintKeys := by
  decide

/-- C9 amended: no operation ever removes one of the qualification keys
(`hasA` is monotone under every tool call), and as long as every
`update_faint` input confines its keys to the five FAINT slots, the key set
of the record stays exactly funds/authority/interest/need/timing; an input
key outside the five, however, is added to the record. -/
theorem faint_keys_amended :
    (∀ (fd : FinancialData) (t : ToolUseReq) (k : String),
        hasA fd.faint k = true → hasA (executeToolAndGetResult fd t).1.faint k = true) ∧
    (∀ ts : List ToolUseReq, (∀ t ∈ ts, inputKeysWithinFaint t = true) →
        (applyToolCalls initialFinancialData ts).faint.map Prod.fst = faintKeys) := by
  constructor
  · intro fd t k h
    cases t <;> simp [executeToolAndGetResult] <;>
      first
        | exact h
        | exact hasA_updateFaint_mono _ _ _ h
  · intro ts hts
    suffices hgen : ∀ (ts : List ToolUseReq) (fd : FinancialData),
        (∀ t ∈ ts, inputKeysWithinFaint t = true) →
        fd.faint.map Prod.fst = faintKeys →
        (applyToolCalls fd ts).faint.map Prod.fst = faintKeys by
      exact hgen ts initialFinancialData hts (by decide)
    intro ts
    induction ts with
    | nil => intro fd _ hk; exact hk
    | cons t rest ih =>
        intro fd hok hk
        have hstep : ((executeToolAndGetResult fd t).1).faint.map Prod.fst = faintKeys := by
          cases t with
          | update_faint id input =>
              have hin : ∀ kv ∈ input, kv.1 ∈ faintKeys := by
                have := hok _ (List.mem_cons_self _ _)
                simp only [inputKeysWithinFaint, List.all_eq_true] at this
                intro kv hkv
                have := this kv hkv
                simpa [List.contains, List.elem_eq_mem] using this
              exact keys_updateFaint_of_within input fd.faint hin hk
          | _ => simpa [executeToolAndGetResult] using hk
        exact ih _ (fun t' h' => hok t' (List.mem_cons_of_mem _ h')) hstep

/-- Witness for C9's amended statement: the `hasA`-monotonicity part applied
to a concrete update, and the exact-key-set part applied to a concrete
sequence of in-schema tool calls. -/
theorem faint_keys_amended_witness :
    hasA (executeToolAndGetResult initialFinancialData
        (.update_faint "toolu_02" [("funds", "$2M")])).1.faint "funds" = true ∧
    (applyToolCalls initialFinancialData
        [.update_faint "toolu_03" [("funds", "$2M")],
         .update_summary "toolu_04" "intro done"]).faint.map Prod.fst = faintKeys := by
  exact ⟨faint_keys_amended.1 initialFinancialData
      (.update_faint "toolu_02" [("funds", "$2M")]) "funds" (by decide),
    faint_keys_amended.2
      [.update_faint "toolu_03" [("funds", "$2M")],
       .update_summary "toolu_04" "intro done"] (by decide)⟩

/-! ## Audio rebuffer (src/index.js lines 100-105, 1880-1922)

Bytes are modelled as `Nat`s; the collector's `audioBuffer` is the list of
buffered chunks.  `sendToAssemblyAI` is the per-push rebuffer step: it appends
the incoming chunk, and once the buffered total reaches the target size it
emits exactly one frame of exactly `TARGET_CHUNK_SIZE` bytes, retaining the
remainder.  `flushAudioBuffer` emits the remainder only when it reaches the
50 ms minimum and the socket is open, and clears the buffer either way. -/

def SAMPLE_RATE : Nat := 16000

def CHANNELS : Nat := 1

def BYTES_PER_SAMPLE : Nat := 2

def TARGET_CHUNK_DURATION_MS : Nat := 250

def TARGET_CHUNK_SIZE : Nat :=
  SAMPLE_RATE * CHANNELS * BYTES_PER_SAMPLE * TARGET_CHUNK_DURATION_MS / 1000

def MIN_CHUNK_SIZE : Nat := SAMPLE_RATE * CHANNELS * BYTES_PER_SAMPLE * 50 / 1000

def sendToAssemblyAI (audioBuffer : List (List Nat)) (audioData : List Nat) :
    List (List Nat) × Option (List Nat) :=
  let buf := audioBuffer ++ [audioData]
  let totalBufferedSize := (buf.map List.length).sum
  if TARGET_CHUNK_SIZE ≤ totalBufferedSize then
    let combinedBuffer := buf.flatten
    let chunkToSend := combinedBuffer.take TARGET_CHUNK_SIZE
    let remainingData := combinedBuffer.drop TARGET_CHUNK_SIZE
    (if 0 < remainingData.length then [remainingData] else [], some chunkToSend)
  else
    (buf, none)

def flushAudioBuffer (wsOpen : Bool) (audioBuffer : List (List Nat)) :
    Option (List Nat) × List (List Nat) :=
  if audioBuffer.isEmpty then (none, audioBuffer)
  else
    let combinedBuffer := audioBuffer.flatten
    if MIN_CHUNK_SIZE ≤ combinedBuffer.length then
      if wsOpen then (some combinedBuffer, []) else (none, [])
    else (none, [])

def processChunks (buffer : List (List Nat)) : List (List Nat) → List (List Nat) × List (List Nat)
  | [] => (buffer, [])
  | c :: rest =>
      match sendToAssemblyAI buffer c with
      | (buf', some f) =>
          let r := processChunks buf' rest
          (r.1, f :: r.2)
      | (buf', none) => processChunks buf' rest

theorem sendToAssemblyAI_emit (buffer : List (List Nat)) (c : List Nat)
    (h : TARGET_CHUNK_SIZE ≤ ((buffer ++ [c]).map List.length).sum) :
    sendToAssemblyAI buffer c =
      (if 0 < (((buffer ++ [c]).flatten).drop TARGET_CHUNK_SIZE).length then
         [((buffer ++ [c]).flatten).drop TARGET_CHUNK_SIZE] else [],
       some (((buffer ++ [c]).flatten).take TARGET_CHUNK_SIZE)) := by
  simp only [sendToAssemblyAI]
  rw [if_pos h]

theorem sendToAssemblyAI_hold (buffer : List (List Nat)) (c : List Nat)
    (h : ¬TARGET_CHUNK_SIZE ≤ ((buffer ++ [c]).map List.length).sum) :
    sendToAssemblyAI buffer c = (buffer ++ [c], none) := by
  simp only [sendToAssemblyAI]
  rw [if_neg h]

theorem processChunks_spec (chunks : List (List Nat)) (buffer : List (List Nat)) :
    (∀ f ∈ (processChunks buffer chunks).2, f.length = TARGET_CHUNK_SIZE) ∧
    ((processChunks buffer chunks).2.flatten ++ (processChunks buffer chunks).1.flatten
      = buffer.flatten ++ chunks.flatten) := by
  induction chunks generalizing buffer with
  | nil => simp [processChunks]
  | cons c rest ih =>
      have hflat : (buffer ++ [c]).flatten = buffer.flatten ++ c := by
        simp [List.flatten_append]
      by_cases hcond : TARGET_CHUNK_SIZE ≤ ((buffer ++ [c]).map List.length).sum
      · have hlen : TARGET_CHUNK_SIZE ≤ ((buffer ++ [c]).flatten).length := by
          rw [List.length_flatten]; exact hcond
        have hsend := sendToAssemblyAI_emit buffer c hcond
        have htake : (((buffer ++ [c]).flatten).take TARGET_CHUNK_SIZE).length
            = TARGET_CHUNK_SIZE := by
          rw [List.length_take]; exact Nat.min_eq_left hlen
        have hbuf' : (if 0 < (((buffer ++ [c]).flatten).drop TARGET_CHUNK_SIZE).length then
              [((buffer ++ [c]).flatten).drop TARGET_CHUNK_SIZE] else []).flatten
            = ((buffer ++ [c]).flatten).drop TARGET_CHUNK_SIZE := by
          by_cases hrem : 0 < (((buffer ++ [c]).flatten).drop TARGET_CHUNK_SIZE).length
          · rw [if_pos hrem]; simp
          · rw [if_neg hrem]
            have h0 : (((buffer ++ [c]).flatten).drop TARGET_CHUNK_SIZE).length = 0 :=
              Nat.eq_zero_of_not_pos hrem
            rw [List.eq_nil_of_length_eq_zero h0]; rfl
        simp only [processChunks, hsend]
        constructor
        · intro f hf
          rcases List.mem_cons.mp hf with h | h
          · rw [h]; exact htake
          · exact (ih _).1 f h
        · have hrec := (ih (if 0 < (((buffer ++ [c]).flatten).drop TARGET_CHUNK_SIZE).length
              then [((buffer ++ [c]).flatten).drop TARGET_CHUNK_SIZE] else [])).2
          rw [hbuf'] at hrec
          simp only [List.flatten_cons]
          rw [List.append_assoc, hrec, ← List.append_assoc,
            List.take_append_drop, hflat]
          simp
      · have hsend := sendToAssemblyAI_hold buffer c hcond
        simp only [processChunks, hsend]
        have hrec := ih (buffer ++ [c])
        refine ⟨hrec.1, ?_⟩
        rw [hrec.2, hflat]
        simp

/-- C3: rebuffer frame sizing and byte preservation.  For every sequence of
pushed chunks, every frame emitted by the rebuffer has exactly
`TARGET_CHUNK_SIZE` bytes (sample rate x channels x bytes-per-sample x 250 ms
/ 1000), the emitted frames followed by the final buffered remainder
reproduce the pushed bytes exactly, and the final `flushAudioBuffer` emits
either nothing (remainder below the 50 ms minimum, or empty) or exactly that
remainder. -/
theorem rebuffer_frames_exact_and_lossless (chunks : List (List Nat)) :
    (∀ f ∈ (processChunks [] chunks).2, f.length = TARGET_CHUNK_SIZE) ∧
    ((processChunks [] chunks).2.flatten ++ (processChunks [] chunks).1.flatten
      = chunks.flatten) ∧
    ((flushAudioBuffer true (processChunks [] chunks).1).1 = none ∨
      (flushAudioBuffer true (processChunks [] chunks).1).1
        = some ((processChunks [] chunks).1.flatten)) := by
  obtain ⟨h1, h2⟩ := processChunks_spec chunks []
  refine ⟨h1, by simpa using h2, ?_⟩
  by_cases he : (processChunks [] chunks).1.isEmpty
  · left; simp only [flushAudioBuffer]; rw [if_pos he]
  · by_cases hm : MIN_CHUNK_SIZE ≤ ((processChunks [] chunks).1.flatten).length
    · right; simp only [flushAudioBuffer]; rw [if_neg he, if_pos hm]; simp
    · left; simp only [flushAudioBuffer]; rw [if_neg he, if_neg hm]

/-! ## Speaker attribution (src/index.js `handleAudioDataWithSpeaker`, lines 1814-1863)

`observeSpeaker` is the speaker-tracking block run on every audio packet: a
previously unseen speaker is registered in `detectedUsers` (insertion order),
auto-assigned `"Consultant"` when it is the first distinct user and
`"Client"` when it is the second, and added to `detectedSpeakers`; activity
counters and the current-speaker pointer are updated on every packet. -/

structure SpeakerInfo where
  firstSeen : Nat
  lastSeen : Nat
  audioChunks : Nat
  role : String
deriving DecidableEq, Repr

structure SpeakerState where
  detectedUsers : List (Nat × SpeakerInfo)
  speakerMapping : List (Nat × String)
  detectedSpeakers : List Nat
  currentSpeakerId : Option Nat
deriving DecidableEq, Repr

def initSpeakerState : SpeakerState :=
  { detectedUsers := [], speakerMapping := [], detectedSpeakers := [],
    currentSpeakerId := none }

def observeSpeaker (st : SpeakerState) (speakerId : Nat) (now : Nat) : SpeakerState :=
  let st1 :=
    if hasA st.detectedUsers speakerId then st
    else
      let users := st.detectedUsers ++
        [(speakerId, { firstSeen := now, lastSeen := now, audioChunks := 0,
                       role := "Unassigned" })]
      let st' :=
        if users.length = 1 then
          { st with
            detectedUsers := updA users speakerId (fun i => { i with role := "Consultant" }),
            speakerMapping := setA st.speakerMapping speakerId "Consultant" }
        else if users.length = 2 then
          { st with
            detectedUsers := updA users speakerId (fun i => { i with role := "Client" }),
            speakerMapping := setA st.speakerMapping speakerId "Client" }
        else
          { st with detectedUsers := users }
      { st' with
        detectedSpeakers :=
          if speakerId ∈ st'.detectedSpeakers then st'.detectedSpeakers
          else st'.detectedSpeakers ++ [speakerId] }
  let st2 := { st1 with
    detectedUsers :=
      updA st1.detectedUsers speakerId
        (fun i => { i with lastSeen := now, audioChunks := i.audioChunks + 1 }) }
  { st2 with currentSpeakerId := some speakerId }

def runObserve (ids : List Nat) : SpeakerState :=
  ids.foldl (fun st id => observeSpeaker st id 0) initSpeakerState

/-- Position of the first occurrence of an id in a list. -/
def posIn : List Nat → Nat → Option Nat
  | [], _ => none
  | y :: rest, x => if y = x then some 0 else (posIn rest x).map (· + 1)

/-- The auto-assignment rule by order of first appearance. -/
def roleOfPos : Option Nat → Option String
  | some 0 => some "Consultant"
  | some 1 => some "Client"
  | _ => none

/-- The distinct speaker ids of a packet sequence, in order of first
appearance. -/
def distinctOrder (ids : List Nat) : List Nat :=
  ids.foldl (fun d x => if x ∈ d then d else d ++ [x]) []

theorem posIn_append_ne (d : List Nat) (x id : Nat) (h : id ≠ x) :
    posIn (d ++ [x]) id = posIn d id := by
  induction d with
  | nil => simp [posIn, Ne.symm h]
  | cons y rest ih =>
      by_cases hy : y = id
      · simp [posIn, hy]
      · simp [posIn, hy, ih]

theorem posIn_append_self (d : List Nat) (x : Nat) (h : x ∉ d) :
    posIn (d ++ [x]) x = some d.length := by
  induction d with
  | nil => simp [posIn]
  | cons y rest ih =>
      simp only [List.mem_cons, not_or] at h
      simp [posIn, Ne.symm h.1, ih h.2]

theorem posIn_eq_none_of_not_mem (d : List Nat) (x : Nat) (h : x ∉ d) :
    posIn d x = none := by
  induction d with
  | nil => rfl
  | cons y rest ih =>
      simp only [List.mem_cons, not_or] at h
      simp [posIn, Ne.symm h.1, ih h.2]

theorem roleOfPos_of_two_le (n : Nat) (h : 2 ≤ n) : roleOfPos (some n) = none := by
  match n, h with
  | n + 2, _ => rfl

theorem observeSpeaker_step (st : SpeakerState) (x now : Nat) (d : List Nat)
    (hd : st.detectedUsers.map Prod.fst = d)
    (hm : ∀ id, lookupA st.speakerMapping id = roleOfPos (posIn d id)) :
    (observeSpeaker st x now).detectedUsers.map Prod.fst
        = (if x ∈ d then d else d ++ [x]) ∧
    (∀ id, lookupA (observeSpeaker st x now).speakerMapping id
        = roleOfPos (posIn (if x ∈ d then d else d ++ [x]) id)) := by
  have hlen : st.detectedUsers.length = d.length := by
    rw [← hd, List.length_map]
  by_cases hseen : hasA st.detectedUsers x = true
  · have hxd : x ∈ d := by rw [← hd]; exact (hasA_iff_mem_keys _ _).mp hseen
    rw [if_pos hxd]
    simp only [observeSpeaker]
    rw [if_pos hseen]
    exact ⟨by rw [keys_updA, hd], fun id => hm id⟩
  · have hxd : x ∉ d := by
      rw [← hd]; intro hmem
      exact hseen ((hasA_iff_mem_keys _ _).mpr hmem)
    have husers : (st.detectedUsers ++
        [(x, (⟨now, now, 0, "Unassigned"⟩ : SpeakerInfo))]).length = d.length + 1 := by
      simp [hlen]
    have hkeys : (st.detectedUsers ++
        [(x, (⟨now, now, 0, "Unassigned"⟩ : SpeakerInfo))]).map Prod.fst = d ++ [x] := by
      simp [hd]
    rw [if_neg hxd]
    simp only [observeSpeaker]
    rw [if_neg hseen, husers]
    by_cases h1 : d.length + 1 = 1
    · have hd0 : d = [] := by
        have h0 : d.length = 0 := by omega
        exact List.eq_nil_of_length_eq_zero h0
      rw [if_pos h1]
      dsimp only
      subst hd0
      refine ⟨by rw [keys_updA, keys_updA, hkeys], fun id => ?_⟩
      by_cases hix : id = x
      · subst hix
        simp [lookupA_setA_self, posIn, roleOfPos]
      · rw [lookupA_setA_ne _ _ _ _ (fun he => hix he.symm), hm id,
          posIn_append_ne _ _ _ hix]
    · by_cases h2 : d.length + 1 = 2
      · rw [if_neg h1, if_pos h2]
        dsimp only
        refine ⟨by rw [keys_updA, keys_updA, hkeys], fun id => ?_⟩
        by_cases hix : id = x
        · subst hix
          rw [lookupA_setA_self, posIn_append_self _ _ hxd]
          have hd1 : d.length = 1 := by omega
          rw [hd1]
          rfl
        · rw [lookupA_setA_ne _ _ _ _ (fun he => hix he.symm), hm id,
            posIn_append_ne _ _ _ hix]
      · rw [if_neg h1, if_neg h2]
        dsimp only
        refine ⟨by rw [keys_updA, hkeys], fun id => ?_⟩
        by_cases hix : id = x
        · rw [hix]
          rw [hm x, posIn_eq_none_of_not_mem _ _ hxd,
            posIn_append_self _ _ hxd, roleOfPos_of_two_le _ (by omega)]
          rfl
        · rw [hm id, posIn_append_ne _ _ _ hix]

theorem observe_fold (ids : List Nat) (st : SpeakerState) (d : List Nat)
    (hd : st.detectedUsers.map Prod.fst = d)
    (hm : ∀ id, lookupA st.speakerMapping id = roleOfPos (posIn d id)) :
    (∀ id, lookupA (ids.foldl (fun s i => observeSpeaker s i 0) st).speakerMapping id
      = roleOfPos (posIn (ids.foldl (fun dd x => if x ∈ dd then dd else dd ++ [x]) d) id)) := by
  induction ids generalizing st d with
  | nil => exact hm
  | cons x rest ih =>
      obtain ⟨hd', hm'⟩ := observeSpeaker_step st x 0 d hd hm
      simpa using ih (observeSpeaker st x 0) (if x ∈ d then d else d ++ [x]) hd' hm'

/-- C5: speaker auto-assignment by arrival order.  For every packet sequence,
the role assigned to any id is a function of that id's position in the order
of first appearance: position 0 maps to "Consultant" (RoleA), position 1 to
"Client" (RoleB), and every later position (or an unseen id) is left
unassigned — never the numeric value of the id.  In particular, for the
sequence [7, 7, 3, 7, 3], speaker 7 is "Consultant", speaker 3 is "Client",
and the current speaker at the end is 3. -/
theorem speaker_auto_assignment_by_arrival (ids : List Nat) :
    (∀ id : Nat, lookupA (runObserve ids).speakerMapping id
        = roleOfPos (posIn (distinctOrder ids) id)) ∧
    (lookupA (runObserve [7, 7, 3, 7, 3]).speakerMapping 7 = some "Consultant" ∧
     lookupA (runObserve [7, 7, 3, 7, 3]).speakerMapping 3 = some "Client" ∧
     (runObserve [7, 7, 3, 7, 3]).currentSpeakerId = some 3) := by
  refine ⟨?_, by decide⟩
  exact observe_fold ids initSpeakerState [] rfl (fun id => rfl)

/-! ## Conversation context (src/index.js lines 2049-2116, 2192-2202)

Messages exchanged with the extraction model have either plain string
content or an array of content blocks (tool-use blocks in assistant turns,
tool-result blocks in user turns). -/

inductive Block
  | toolUse (id name : String)
  | toolResult (id content : String)
  | text (s : String)
deriving DecidableEq, Repr

inductive Content
  | str (s : String)
  | arr (blocks : List Block)
deriving DecidableEq, Repr

inductive Role
  | user
  | assistant
deriving DecidableEq, Repr

structure Msg where
  role : Role
  content : Content
deriving DecidableEq, Repr

def blockIsToolUse : Block → Bool
  | .toolUse _ _ => true
  | _ => false

def hasToolUse (blocks : List Block) : Bool :=
  blocks.any blockIsToolUse

def isUserArr (m : Msg) : Bool :=
  match m.role, m.content with
  | .user, .arr _ => true
  | _, _ => false

def isAssistantToolUse (m : Msg) : Bool :=
  match m.role, m.content with
  | .assistant, .arr blocks => hasToolUse blocks
  | _, _ => false

/-- A user message whose content is not an array (plain text), the safe
truncation point sought by the pruning loop (line 2099). -/
def isPlainUser (m : Msg) : Bool :=
  match m.role, m.content with
  | .user, .str _ => true
  | _, _ => false

/-- One iteration of the `validateAndCleanHistory` loop (lines 2053-2076):
a user message with array content is kept only when the last kept message is
an assistant message with array content containing a tool-use block;
assistant messages with array content are always kept; plain string messages
are kept when non-blank. -/
def vachStep (cleaned : List Msg) (msg : Msg) : List Msg :=
  match msg.role, msg.content with
  | .user, .arr _ =>
      match cleaned.getLast? with
      | some prev => if isAssistantToolUse prev then cleaned ++ [msg] else cleaned
      | none => cleaned
  | .assistant, .arr _ => cleaned ++ [msg]
  | _, .str s => if jsTrim s ≠ "" then cleaned ++ [msg] else cleaned

def validateAndCleanHistory (history : List Msg) : List Msg :=
  history.foldl vachStep []

/-- The message filter applied before `validateAndCleanHistory`
(lines 2108-2113): array content must be non-empty, string content must be
non-blank. -/
def filterValid (history : List Msg) : List Msg :=
  history.filter fun m =>
    match m.content with
    | .arr blocks => 0 < blocks.length
    | .str s => jsTrim s ≠ ""

/-- The downward scan of the pruning loop (lines 2095-2103): starting at
index `i` and walking toward 0, the first plain user-text entry found is the
safe truncation index; 0 if none is found. -/
def findSafeStart (h : List Msg) : Nat → Nat
  | 0 => 0
  | i + 1 =>
      match h[i + 1]? with
      | some m => if isPlainUser m then i + 1 else findSafeStart h i
      | none => findSafeStart h i

def safeStartIndex (h : List Msg) : Nat :=
  findSafeStart h (h.length - 20)

/-- The pruning step of `processTranscript` (lines 2093-2105): histories
longer than 30 messages are truncated at the safe start index. -/
def pruneHistory (h : List Msg) : List Msg :=
  if 30 < h.length then h.drop (safeStartIndex h) else h

/-- No orphaned tool-result entry: read head-to-tail, a user message with
array content never starts the list and always immediately follows an
assistant message carrying a tool-use block. -/
def noOrphanFrom : Msg → List Msg → Bool
  | _, [] => true
  | prev, m :: rest => (!isUserArr m || isAssistantToolUse prev) && noOrphanFrom m rest

def noOrphan : List Msg → Bool
  | [] => true
  | m :: rest => !isUserArr m && noOrphanFrom m rest

/-- The last element of `p :: l`. -/
def lastD (p : Msg) : List Msg → Msg
  | [] => p
  | m :: rest => lastD m rest

theorem getLast?_cons_eq_lastD (p : Msg) (l : List Msg) :
    (p :: l).getLast? = some (lastD p l) := by
  induction l generalizing p with
  | nil => rfl
  | cons m rest ih => rw [List.getLast?_cons_cons, ih, lastD]

theorem noOrphanFrom_append (p : Msg) (l : List Msg) (m : Msg)
    (hl : noOrphanFrom p l = true)
    (hm : isUserArr m = false ∨ isAssistantToolUse (lastD p l) = true) :
    noOrphanFrom p (l ++ [m]) = true := by
  induction l generalizing p with
  | nil =>
      simp only [List.nil_append, noOrphanFrom, Bool.and_eq_true]
      rcases hm with h | h <;> simp [lastD] at h ⊢ <;> simp [h]
  | cons q rest ih =>
      simp only [noOrphanFrom, Bool.and_eq_true] at hl
      simp only [List.cons_append, noOrphanFrom, Bool.and_eq_true]
      exact ⟨hl.1, ih q hl.2 (by simpa [lastD] using hm)⟩

theorem noOrphan_append (l : List Msg) (m : Msg)
    (hl : noOrphan l = true)
    (hm : isUserArr m = false ∨
      (∃ p, l.getLast? = some p ∧ isAssistantToolUse p = true)) :
    noOrphan (l ++ [m]) = true := by
  cases l with
  | nil =>
      rcases hm with h | h
      · simp [noOrphan, noOrphanFrom, h]
      · obtain ⟨p, hp, _⟩ := h
        simp at hp
  | cons q rest =>
      simp only [noOrphan, Bool.and_eq_true] at hl
      simp only [List.cons_append, noOrphan, Bool.and_eq_true]
      refine ⟨hl.1, noOrphanFrom_append q rest m hl.2 ?_⟩
      rcases hm with h | h
      · exact Or.inl h
      · obtain ⟨p, hp, htool⟩ := h
        rw [getLast?_cons_eq_lastD] at hp
        right
        rw [Option.some_inj.mp hp]
        exact htool

theorem vachStep_preserves (cleaned : List Msg) (msg : Msg)
    (h : noOrphan cleaned = true) : noOrphan (vachStep cleaned msg) = true := by
  cases hr : msg.role <;> cases hc : msg.content
  case user.str s =>
      simp only [vachStep, hr, hc]
      by_cases hs : jsTrim s ≠ ""
      · rw [if_pos hs]
        exact noOrphan_append _ _ h (Or.inl (by simp [isUserArr, hr, hc]))
      · rw [if_neg hs]; exact h
  case user.arr blocks =>
      simp only [vachStep, hr, hc]
      cases hlast : cleaned.getLast? with
      | none => exact h
      | some prev =>
          dsimp only
          by_cases hp : isAssistantToolUse prev = true
          · rw [if_pos hp]
            exact noOrphan_append _ _ h (Or.inr ⟨prev, hlast, hp⟩)
          · rw [if_neg hp]; exact h
  case assistant.str s =>
      simp only [vachStep, hr, hc]
      by_cases hs : jsTrim s ≠ ""
      · rw [if_pos hs]
        exact noOrphan_append _ _ h (Or.inl (by simp [isUserArr, hr, hc]))
      · rw [if_neg hs]; exact h
  case assistant.arr blocks =>
      simp only [vachStep, hr, hc]
      exact noOrphan_append _ _ h (Or.inl (by simp [isUserArr, hr, hc]))

theorem noOrphan_foldl (history : List Msg) (cleaned : List Msg)
    (h : noOrphan cleaned = true) :
    noOrphan (history.foldl vachStep cleaned) = true := by
  induction history generalizing cleaned with
  | nil => exact h
  | cons m rest ih => exact ih _ (vachStep_preserves cleaned m h)

theorem findSafeStart_plainUser (h : List Msg) (n : Nat)
    (hpos : 0 < findSafeStart h n) :
    ∃ m, h[findSafeStart h n]? = some m ∧ isPlainUser m = true := by
  induction n with
  | zero => simp [findSafeStart] at hpos
  | succ i ih =>
      cases hm : h[i + 1]? with
      | none =>
          rw [findSafeStart, hm] at hpos ⊢
          exact ih hpos
      | some m =>
          rw [findSafeStart, hm] at hpos ⊢
          dsimp only at hpos ⊢
          by_cases hp : isPlainUser m = true
          · rw [if_pos hp] at hpos ⊢
            exact ⟨m, hm, hp⟩
          · rw [if_neg hp] at hpos ⊢
            exact ih hpos

/-- C6: conversation-context pruning cuts only at a safe boundary.  For every
history, the list produced by pruning, filtering and
`validateAndCleanHistory` — the list handed to the extraction model —
contains no orphaned tool-result entry (every user message with array
content immediately follows a kept assistant message with a tool-use block),
and whenever the pruning scan selects a positive truncation index, the entry
at that index is a plain user-text message. -/
theorem pruning_safe_boundary (h : List Msg) :
    noOrphan (validateAndCleanHistory (filterValid (pruneHistory h))) = true ∧
    (0 < safeStartIndex h →
      ∃ m, h[safeStartIndex h]? = some m ∧ isPlainUser m = true) := by
  exact ⟨noOrphan_foldl _ _ rfl, fun hpos => findSafeStart_plainUser h _ hpos⟩

/-- Witness for C6: a concrete 31-message history (21 plain user turns, then
a tool-use/tool-result exchange, then more plain turns) whose pruning index
is positive and lands on a plain user-text entry, and whose cleaned history
carries no orphaned tool result. -/
theorem pruning_safe_boundary_witness :
    noOrphan (validateAndCleanHistory (filterValid (pruneHistory
      (List.replicate 21 ⟨Role.user, Content.str "hello"⟩ ++
       [⟨Role.assistant, Content.arr [Block.toolUse "t1" "update_summary"]⟩,
        ⟨Role.user, Content.arr [Block.toolResult "t1" "Added"]⟩] ++
       List.replicate 8 ⟨Role.user, Content.str "more"⟩)))) = true ∧
    (∃ m, (List.replicate 21 ⟨Role.user, Content.str "hello"⟩ ++
       [⟨Role.assistant, Content.arr [Block.toolUse "t1" "update_summary"]⟩,
        ⟨Role.user, Content.arr [Block.toolResult "t1" "Added"]⟩] ++
       List.replicate 8 (⟨Role.user, Content.str "more"⟩ : Msg))[safeStartIndex
         (List.replicate 21 ⟨Role.user, Content.str "hello"⟩ ++
          [⟨Role.assistant, Content.arr [Block.toolUse "t1" "update_summary"]⟩,
           ⟨Role.user, Content.arr [Block.toolResult "t1" "Added"]⟩] ++
          List.replicate 8 ⟨Role.user, Content.str "more"⟩)]? = some m ∧
       isPlainUser m = true) :=
  ⟨(pruning_safe_boundary _).1, (pruning_safe_boundary _).2 (by decide)⟩

/-- The tool-pairing-error fallback in `processTranscript`'s catch block
(lines 2196-2201): the conversation history is reset to the last five plain
string user messages; the session record is not touched. -/
structure ExtractorState where
  conversationHistory : List Msg
  financialData : FinancialData
deriving DecidableEq, Repr

def isPlainUserB (m : Msg) : Bool :=
  decide (m.role = Role.user) &&
    (match m.content with | .str _ => true | .arr _ => false)

def takeLast {α : Type} (n : Nat) (l : List α) : List α :=
  l.drop (l.length - n)

def resetOnPairingError (s : ExtractorState) : ExtractorState :=
  { s with conversationHistory :=
      takeLast 5 (s.conversationHistory.filter isPlainUserB) }

/-- C7: extraction-protocol error recovery preserves merged data.  The
recovery branch maps the extractor state to one whose history is the last at
most five plain-string user messages of the old history, and whose
session record (`financialData`) is exactly the one from before the error. -/
theorem pairing_error_recovery (s : ExtractorState) :
    (resetOnPairingError s).financialData = s.financialData ∧
    (resetOnPairingError s).conversationHistory.length ≤ 5 ∧
    (∀ m ∈ (resetOnPairingError s).conversationHistory,
        m.role = Role.user ∧ ∃ str, m.content = Content.str str) ∧
    (resetOnPairingError s).conversationHistory =
      takeLast 5 (s.conversationHistory.filter isPlainUserB) := by
  refine ⟨rfl, ?_, ?_, rfl⟩
  · simp only [resetOnPairingError, takeLast, List.length_drop]
    omega
  · intro m hm
    have hmem : m ∈ s.conversationHistory.filter isPlainUserB :=
      List.mem_of_mem_drop hm
    have hfil := List.of_mem_filter hmem
    simp only [isPlainUserB, Bool.and_eq_true, decide_eq_true_eq] at hfil
    refine ⟨hfil.1, ?_⟩
    cases hc : m.content with
    | str str => exact ⟨str, rfl⟩
    | arr blocks => rw [hc] at hfil; simp at hfil

/-! ## Transcription message handler (src/index.js `handleAssemblyAIMessage`,
lines 1609-1646, and `/api/transcript`, lines 1356-1362)

The handler reacts to `Begin`, `Turn` and `Termination` messages.  Only a
formatted (finalized) turn with a non-blank transcript is labeled with the
current speaker role, appended to `global.liveTranscripts` (capped at the 50
most recent entries) and handed to `processTranscript`; the returned
`Option String` is the labeled transcript passed to the extractor, `none`
when the extractor is not invoked. -/

structure LiveEntry where
  timestamp : String
  text : String
  speaker : String
  speakerId : Option Nat
  type : String
deriving DecidableEq, Repr

structure TranscriptState where
  liveTranscripts : List LiveEntry
  financialData : FinancialData
  speakerMapping : List (Nat × String)
  currentSpeakerId : Option Nat
deriving DecidableEq, Repr

def speakerRoleOf (s : TranscriptState) : String :=
  match s.currentSpeakerId with
  | some id =>
      match lookupA s.speakerMapping id with
      | some role => role
      | none => "Speaker " ++ toString id
  | none => "Speaker null"

structure AAIMessage where
  type : String
  transcript : String
  turn_is_formatted : Bool
deriving DecidableEq, Repr

def mkEntry (s : TranscriptState) (m : AAIMessage) (ts : String) : LiveEntry :=
  { timestamp := ts
    text := speakerRoleOf s ++ ": " ++ m.transcript
    speaker := speakerRoleOf s
    speakerId := s.currentSpeakerId
    type := "final" }

def handleAssemblyAIMessage (s : TranscriptState) (m : AAIMessage) (ts : String) :
    TranscriptState × Option String :=
  if m.type = "Begin" then
    ({ s with liveTranscripts := [] }, none)
  else if m.type = "Turn" then
    if m.turn_is_formatted && jsTrim m.transcript != "" then
      let labeled := speakerRoleOf s ++ ": " ++ m.transcript
      let lts := s.liveTranscripts ++ [mkEntry s m ts]
      let lts2 := if 50 < lts.length then takeLast 50 lts else lts
      ({ s with liveTranscripts := lts2 }, some labeled)
    else
      (s, none)
  else
    (s, none)

/-- The `/api/transcript` endpoint returns the live transcript buffer. -/
def apiTranscript (s : TranscriptState) : List LiveEntry :=
  s.liveTranscripts

/-- C8: partial turns never enter the session record.  A `Turn` message that
is not finalized (`turn_is_formatted` false) or whose transcript is blank
after trimming leaves the whole handler state — live transcript buffer,
session record, speaker state — unchanged and does not invoke the extractor
(no labeled transcript is produced). -/
theorem nonfinal_turns_never_enter (s : TranscriptState) (m : AAIMessage) (ts : String)
    (hturn : m.type = "Turn")
    (h : m.turn_is_formatted = false ∨ jsTrim m.transcript = "") :
    handleAssemblyAIMessage s m ts = (s, none) := by
  have hcond : (m.turn_is_formatted && jsTrim m.transcript != "") = false := by
    rcases h with h | h <;> simp [h]
  simp [handleAssemblyAIMessage, hturn, hcond]

/-- Witness for C8: a non-finalized turn and a whitespace-only finalized turn
both leave a concrete state untouched with no extractor invocation. -/
theorem nonfinal_turns_never_enter_witness :
    handleAssemblyAIMessage
      ⟨[], initialFinancialData, [(7, "Consultant")], some 7⟩
      ⟨"Turn", "uh let me think", false⟩ "10:00:00" =
      (⟨[], initialFinancialData, [(7, "Consultant")], some 7⟩, none) ∧
    handleAssemblyAIMessage
      ⟨[], initialFinancialData, [(7, "Consultant")], some 7⟩
      ⟨"Turn", "   ", true⟩ "10:00:01" =
      (⟨[], initialFinancialData, [(7, "Consultant")], some 7⟩, none) :=
  ⟨nonfinal_turns_never_enter _ _ _ rfl (Or.inl rfl),
   nonfinal_turns_never_enter _ _ _ rfl (Or.inr (by decide))⟩

/-- C10: the live transcript buffer is bounded by 50.  If the buffer holds at
most 50 entries before a message, it holds at most 50 after the handler runs
(so `/api/transcript` never returns more than 50 turns), and when appending a
finalized turn would exceed 50 the buffer becomes exactly the most recent 50
entries of the appended list. -/
theorem live_transcripts_bounded (s : TranscriptState) (m : AAIMessage) (ts : String)
    (h : s.liveTranscripts.length ≤ 50) :
    (handleAssemblyAIMessage s m ts).1.liveTranscripts.length ≤ 50 ∧
    (apiTranscript (handleAssemblyAIMessage s m ts).1).length ≤ 50 ∧
    (m.type = "Turn" → (m.turn_is_formatted && jsTrim m.transcript != "") = true →
      50 < s.liveTranscripts.length + 1 →
      (handleAssemblyAIMessage s m ts).1.liveTranscripts
        = takeLast 50 (s.liveTranscripts ++ [mkEntry s m ts])) := by
  have hmain : (handleAssemblyAIMessage s m ts).1.liveTranscripts.length ≤ 50 ∧
      (m.type = "Turn" → (m.turn_is_formatted && jsTrim m.transcript != "") = true →
        50 < s.liveTranscripts.length + 1 →
        (handleAssemblyAIMessage s m ts).1.liveTranscripts
          = takeLast 50 (s.liveTranscripts ++ [mkEntry s m ts])) := by
    by_cases hb : m.type = "Begin"
    · constructor
      · simp [handleAssemblyAIMessage, hb]
      · intro ht
        rw [ht] at hb
        exact absurd hb (by decide)
    · by_cases ht : m.type = "Turn"
      · simp only [handleAssemblyAIMessage]
        rw [if_neg hb, if_pos ht]
        by_cases hc : (m.turn_is_formatted && jsTrim m.transcript != "") = true
        · rw [if_pos hc]
          by_cases hover : 50 < (s.liveTranscripts ++ [mkEntry s m ts]).length
          · rw [if_pos hover]
            dsimp only
            refine ⟨?_, fun _ _ _ => rfl⟩
            simp only [takeLast, List.length_drop]
            omega
          · rw [if_neg hover]
            dsimp only
            simp only [List.length_append, List.length_cons, List.length_nil] at hover ⊢
            exact ⟨by omega, fun _ _ hgt => absurd hgt (by omega)⟩
        · rw [if_neg hc]
          exact ⟨h, fun _ hc' _ => absurd hc' hc⟩
      · simp only [handleAssemblyAIMessage]
        rw [if_neg hb, if_neg ht]
        exact ⟨h, fun ht' _ _ => absurd ht' ht⟩
  exact ⟨hmain.1, hmain.1, hmain.2⟩

/-- Witness for C10: processing a finalized turn on a concrete one-entry
buffer keeps the bound, and the trimming branch fires on a concrete
51-entry buffer. -/
theorem live_transcripts_bounded_witness :
    ((handleAssemblyAIMessage
        ⟨List.replicate 50 ⟨"t", "x", "s", none, "final"⟩, initialFinancialData, [], none⟩
        ⟨"Turn", "hello there", true⟩ "ts").1.liveTranscripts.length ≤ 50 ∧
     (apiTranscript (handleAssemblyAIMessage
        ⟨List.replicate 50 ⟨"t", "x", "s", none, "final"⟩, initialFinancialData, [], none⟩
        ⟨"Turn", "hello there", true⟩ "ts").1).length ≤ 50 ∧
     (("Turn" : String) = "Turn" → ((true : Bool) && jsTrim "hello there" != "") = true →
      50 < (List.replicate (α := LiveEntry) 50 ⟨"t", "x", "s", none, "final"⟩).length + 1 →
      (handleAssemblyAIMessage
        ⟨List.replicate 50 ⟨"t", "x", "s", none, "final"⟩, initialFinancialData, [], none⟩
        ⟨"Turn", "hello there", true⟩ "ts").1.liveTranscripts
        = takeLast 50 (List.replicate 50 ⟨"t", "x", "s", none, "final"⟩ ++
            [mkEntry ⟨List.replicate 50 ⟨"t", "x", "s", none, "final"⟩,
              initialFinancialData, [], none⟩ ⟨"Turn", "hello there", true⟩ "ts"]))) :=
  live_transcripts_bounded
    ⟨List.replicate 50 ⟨"t", "x", "s", none, "final"⟩, initialFinancialData, [], none⟩
    ⟨"Turn", "hello there", true⟩ "ts" (by simp)

/-! ## Process state and meeting lifecycle (src/index.js lines 66-98,
1499-1540, 1560-1570, 1814-1878)

The process keeps the audio collectors in a map keyed by meeting uuid, but
the conversation history, session record, live transcript buffer and speaker
state are single module-level variables.  The `meeting.rtms_started` webhook
(lines 1499-1539) resets those globals and installs a fresh collector for
the started meeting; `handleAudioDataWithSpeaker` (lines 1814-1878) mutates
the packet's own collector plus the global speaker state. -/

structure Collector where
  audioChunks : List (List Nat)
  audioBuffer : List (List Nat)
  totalBytes : Nat
  chunkCount : Nat
  startTime : Nat
  hasWs : Bool
  stopRequested : Bool
deriving DecidableEq, Repr

def freshCollector (now : Nat) : Collector :=
  { audioChunks := [], audioBuffer := [], totalBytes := 0, chunkCount := 0,
    startTime := now, hasWs := false, stopRequested := false }

structure SystemState where
  conversationHistory : List Msg
  conversationId : Option String
  financialData : FinancialData
  liveTranscripts : List LiveEntry
  speakers : SpeakerState
  audioCollectors : List (String × Collector)
deriving DecidableEq, Repr

/-- `meeting_uuid.replace(/[^a-zA-Z0-9]/g, "_")` (line 1504). -/
def sanitizeId (s : String) : String :=
  ⟨s.data.map fun c => if c.isAlphanum then c else '_'⟩

def initializeAudioCollection (s : SystemState) (meetingUuid : String) (now : Nat) :
    SystemState :=
  { s with audioCollectors := setA s.audioCollectors meetingUuid (freshCollector now) }

def handleRtmsStarted (s : SystemState) (meeting_uuid : String) (now : Nat) :
    SystemState :=
  let s1 := { s with
    conversationId := some (sanitizeId meeting_uuid)
    conversationHistory := []
    financialData := initialFinancialData
    speakers := initSpeakerState
    liveTranscripts := [] }
  initializeAudioCollection s1 meeting_uuid now

def handleAudioDataWithSpeaker (s : SystemState) (meetingUuid : String)
    (speakerId : Nat) (data : List Nat) (now : Nat) : SystemState :=
  match lookupA s.audioCollectors meetingUuid with
  | none => s
  | some col =>
      if col.stopRequested then s
      else
        let sp := observeSpeaker s.speakers speakerId now
        let col1 := { col with
          audioChunks := col.audioChunks ++ [data]
          totalBytes := col.totalBytes + data.length
          chunkCount := col.chunkCount + 1 }
        let col2 :=
          if col1.hasWs then
            { col1 with audioBuffer := (sendToAssemblyAI col1.audioBuffer data).1 }
          else col1
        { s with speakers := sp
                 audioCollectors := setA s.audioCollectors meetingUuid col2 }

/-- A concrete process state in which meeting "A" is active and its session
record already holds one summary point. -/
def stateWithMeetingA : SystemState :=
  { conversationHistory := [⟨Role.user, Content.str "Consultant: hello"⟩]
    conversationId := some "A"
    financialData := { initialFinancialData with summary := ["Client has $2M in savings"] }
    liveTranscripts := []
    speakers := { detectedUsers := [(7, ⟨0, 0, 1, "Consultant"⟩)],
                  speakerMapping := [(7, "Consultant")],
                  detectedSpeakers := [7], currentSpeakerId := some 7 }
    audioCollectors := [("A", freshCollector 0)] }

/-- C4 counterexample: per-meeting isolation fails.  The session record is a
process-wide global, so processing the start signal of a second meeting "B"
wipes meeting "A"'s accumulated session record (its summary point is erased),
and the speaker map global is reset too. -/
theorem per_meeting_isolation_counterexample :
    (handleRtmsStarted stateWithMeetingA "B" 1).financialData.summary
        ≠ stateWithMeetingA.financialData.summary ∧
    (handleRtmsStarted stateWithMeetingA "B" 1).speakers
        ≠ stateWithMeetingA.speakers := by
  decide

/-- C4 amended: only the audio collectors are isolated per meeting.
Processing a start signal or an audio packet for meeting `b` leaves meeting
`a`'s collector entry unchanged, and audio packets never touch the session
record; but the session record, conversation context, speaker map and live
transcript buffer are process-wide globals, and a start signal for any
meeting resets the session record to its initial value. -/
theorem per_meeting_isolation_amended (s : SystemState) (a b : String)
    (speakerId : Nat) (data : List Nat) (now : Nat) (hab : a ≠ b) :
    lookupA (handleAudioDataWithSpeaker s b speakerId data now).audioCollectors a
      = lookupA s.audioCollectors a ∧
    (handleAudioDataWithSpeaker s b speakerId data now).financialData
      = s.financialData ∧
    lookupA (handleRtmsStarted s b now).audioCollectors a
      = lookupA s.audioCollectors a ∧
    (handleRtmsStarted s b now).financialData = initialFinancialData := by
  refine ⟨?_, ?_, ?_, rfl⟩
  · cases hcol : lookupA s.audioCollectors b with
    | none => simp only [handleAudioDataWithSpeaker, hcol]
    | some col =>
        simp only [handleAudioDataWithSpeaker, hcol]
        by_cases hstop : col.stopRequested = true
        · rw [if_pos hstop]
        · rw [if_neg hstop]
          dsimp only
          exact lookupA_setA_ne _ _ _ _ (fun he => hab he.symm)
  · cases hcol : lookupA s.audioCollectors b with
    | none => simp only [handleAudioDataWithSpeaker, hcol]
    | some col =>
        simp only [handleAudioDataWithSpeaker, hcol]
        by_cases hstop : col.stopRequested = true
        · rw [if_pos hstop]
        · rw [if_neg hstop]
  · simp only [handleRtmsStarted, initializeAudioCollection]
    exact lookupA_setA_ne _ _ _ _ (fun he => hab he.symm)

/-- Witness for C4's amended statement at concrete meetings "A" and "B". -/
theorem per_meeting_isolation_amended_witness :
    lookupA (handleAudioDataWithSpeaker stateWithMeetingA "B" 3 [0, 1] 2).audioCollectors
        "A" = lookupA stateWithMeetingA.audioCollectors "A" ∧
    (handleAudioDataWithSpeaker stateWithMeetingA "B" 3 [0, 1] 2).financialData
      = stateWithMeetingA.financialData ∧
    lookupA (handleRtmsStarted stateWithMeetingA "B" 2).audioCollectors "A"
      = lookupA stateWithMeetingA.audioCollectors "A" ∧
    (handleRtmsStarted stateWithMeetingA "B" 2).financialData = initialFinancialData :=
  per_meeting_isolation_amended stateWithMeetingA "A" "B" 3 [0, 1] 2 (by decide)

end RTMSAssist
